import Mathlib

/-!
Verification development for the ultrasonic-ranger demo.

The embedded code comes from:
- ranger-u/src/pulse_measure.cpp       (PulseTracker::on_edge)
- ranger-u/include/filter_median.hpp   (MedianFilter::push)
- ranger-u/src/main.cpp                (per-sensor loop, periodic export tick)
- ranger-k/ranger_k.c                  (echo_irq_thread, width_ns_to_um, debugfs reads)
- ranger-can/src/ranger_can.cpp        (ISO-TP send rate limiter)

Numeric conventions of the embedding: C++ double arithmetic on distances is
modelled exactly over ℚ; timestamps (std::chrono::nanoseconds, ktime_t) are ℤ;
the kernel's u32 / u64 machine integers are ℕ with explicit reduction
modulo 2 ^ 32 / 2 ^ 64 at the operations where the C code wraps or truncates.
std::sort over the copied window is modelled by an insertion sort (any
ascending sort yields the same list of values).
-/

/-! ## PulseTracker (ranger-u/src/pulse_measure.cpp) -/

inductive Edge where
  | Rising
  | Falling
deriving DecidableEq

structure EdgeStamp where
  edge : Edge
  ts : ℤ
deriving DecidableEq

structure Pulse where
  width : ℤ
  distance_m : ℚ
deriving DecidableEq

structure PulseTracker where
  t_rise : Option ℤ
  c : ℚ
deriving DecidableEq

/-- Embeds PulseTracker::on_edge.  The C++ returns the optional pulse and
mutates the tracker in place; here the new tracker state is returned alongside.
On Falling while armed the code computes `t_s = w * 1e-9` seconds and
`dist = (c_ * t_s) / 2.0` meters. -/
def PulseTracker.on_edge (pt : PulseTracker) (es : EdgeStamp) : PulseTracker × Option Pulse :=
  match es.edge, pt.t_rise with
  | .Rising, _ => ({ pt with t_rise := some es.ts }, none)
  | .Falling, some r =>
      ({ pt with t_rise := none },
       some ⟨es.ts - r, pt.c * (((es.ts - r : ℤ) : ℚ) * (1 / 1000000000)) / 2⟩)
  | .Falling, none => (pt, none)

/-! ## MedianFilter (ranger-u/include/filter_median.hpp) -/

/-- Insertion of one element into an ascending-sorted list. -/
def insertSorted (v : ℚ) : List ℚ → List ℚ
  | [] => [v]
  | x :: xs => if v ≤ x then v :: x :: xs else x :: insertSorted v xs

/-- Ascending sort, modelling the `std::sort(tmp.begin(), tmp.end())` call. -/
def sortLe (l : List ℚ) : List ℚ := l.foldr insertSorted []

structure MedianFilter where
  win : ℕ
  buf : List ℚ
deriving DecidableEq

/-- Embeds MedianFilter::push: append v, pop the front if the deque exceeds
the window, return nothing while the deque is still short, otherwise sort a
copy and return `tmp[tmp.size()/2]`.  The out-of-range read that the C++
performs when `win = 0` (index 0 of an empty vector, undefined behavior)
appears here as `getD` returning the default 0. -/
def MedianFilter.push (m : MedianFilter) (v : ℚ) : MedianFilter × Option ℚ :=
  let b1 := m.buf ++ [v]
  let b2 := if m.win < b1.length then b1.tail else b1
  if b2.length < m.win then (⟨m.win, b2⟩, none)
  else (⟨m.win, b2⟩, some ((sortLe b2).getD ((sortLe b2).length / 2) 0))

/-- Feed a list of values through the filter, collecting each push's output. -/
def mfRun (m : MedianFilter) : List ℚ → List (Option ℚ)
  | [] => []
  | v :: vs => (m.push v).2 :: mfRun (m.push v).1 vs

/-- Last `w` elements of a list (the current window after the pops). -/
def lastN (w : ℕ) (l : List ℚ) : List ℚ := l.drop (l.length - w)

/-- The value MedianFilter::push extracts from a full window: the sorted
copy's element at index `size / 2`. -/
def medianOf (l : List ℚ) : ℚ := (sortLe l).getD (l.length / 2) 0

/-- The lower of the two middle values of an even-sized sorted window
(index `size / 2 - 1`); stated by the spec as the even-window convention. -/
def lowerMiddle (l : List ℚ) : ℚ := (sortLe l).getD (l.length / 2 - 1) 0

/-! ## Kernel module ranger_k (ranger-k/ranger_k.c) -/

/-- Embeds width_ns_to_um: `(u32)div64_u64((u64)width_ns * 171500ULL, 1000000ULL)`.
The s64 argument is reinterpreted as u64 (reduction mod 2 ^ 64), the u64
product wraps mod 2 ^ 64, and the final cast truncates to u32 (mod 2 ^ 32). -/
def width_ns_to_um (width_ns : ℤ) : ℕ :=
  ((((width_ns % 2 ^ 64).toNat * 171500) % 2 ^ 64) / 1000000) % 2 ^ 32

/-- Per-line state of the kernel module (struct sensor_state, data fields). -/
structure SensorState where
  have_rise : Bool
  rise_ts : ℤ
  dist_um : ℕ
  pulses : ℕ
  overruns : ℕ
deriving DecidableEq

/-- The zeroed initial state of the static `g.s[i]` array. -/
def sensorInit : SensorState := ⟨false, 0, 0, 0, 0⟩

/-- Embeds the body of echo_irq_thread for one sensor (the part executed
under `g.lock`): on a high level record the rising timestamp; on a low level
either complete a pulse (pulses++, dist_um updated) or count an overrun.
The u32 counters wrap mod 2 ^ 32. -/
def echo_irq_thread (s : SensorState) (now : ℤ) (level : Bool) : SensorState :=
  if level then
    { s with have_rise := true, rise_ts := now }
  else if s.have_rise then
    { s with have_rise := false,
             pulses := (s.pulses + 1) % 2 ^ 32,
             dist_um := width_ns_to_um (now - s.rise_ts) }
  else
    { s with overruns := (s.overruns + 1) % 2 ^ 32 }

/-! ## Interleaving model of the kernel module's shared state

Both echo_irq_thread and the debugfs readers (distances_read, stats_read)
run their entire access to `g.s[]` inside `spin_lock_irqsave(&g.lock)`,
so in any interleaving each critical section is one atomic step: either one
edge applied to one channel, or one consistent copy of the whole array. -/

/-- Global shared state: the five sensor slots plus the u32 seq counter. -/
structure SysState where
  s : Fin 5 → SensorState
  seq : ℕ

def sysInit : SysState := ⟨fun _ => sensorInit, 0⟩

/-- One lock-protected critical section: an IRQ-thread invocation on one
channel, or a debugfs read taking a snapshot copy. -/
inductive SysOp where
  | edge (ch : Fin 5) (now : ℤ) (level : Bool)
  | snap

def sysStep (st : SysState) : SysOp → SysState
  | .edge ch now level =>
      ⟨Function.update st.s ch (echo_irq_thread (st.s ch) now level), (st.seq + 1) % 2 ^ 32⟩
  | .snap => st

/-- Run an interleaving; the second component collects, in order, the state
copied by each snap operation. -/
def sysRun (st : SysState) : List SysOp → SysState × List SysState
  | [] => (st, [])
  | op :: rest =>
    let r := sysRun (sysStep st op) rest
    match op with
    | .snap => (r.1, st :: r.2)
    | .edge _ _ _ => r

/-- The edge events of an interleaving that were delivered to channel c. -/
def chanEvents (ops : List SysOp) (c : Fin 5) : List (ℤ × Bool) :=
  ops.filterMap fun op =>
    match op with
    | .edge ch now level => if ch = c then some (now, level) else none
    | .snap => none

/-- Sequential application of edge events to one channel's state. -/
def applyChan (s : SensorState) (evs : List (ℤ × Bool)) : SensorState :=
  evs.foldl (fun t e => echo_irq_thread t e.1 e.2) s

/-! ## Export ticks (ranger-u/src/main.cpp and ranger-can/src/ranger_can.cpp) -/

/-- Embeds the periodic print of ranger-u main.cpp: at each loop pass with
time `now`, `if (now >= next_print) { emit; next_print += print_interval; }`.
Returns the times at which a snapshot was emitted. -/
def next_print_run (print_interval : ℕ) (next_print : ℕ) : List ℕ → List ℕ
  | [] => []
  | now :: rest =>
    if next_print ≤ now then now :: next_print_run print_interval (next_print + print_interval) rest
    else next_print_run print_interval next_print rest

/-- u64 subtraction `now_ns - last_sent_ns` with wraparound. -/
def u64_sub (a b : ℕ) : ℕ := (((a : ℤ) - (b : ℤ)) % 2 ^ 64).toNat

/-- Embeds the rate limiter of ranger_can.cpp: a frame at time `now` is
skipped when `last_sent_ns != 0 && (now_ns - last_sent_ns) < min_interval_ns`,
otherwise it is sent and `last_sent_ns = now_ns`.  Returns the send times. -/
def isotp_run (min_interval_ns : ℚ) (last_sent_ns : ℕ) : List ℕ → List ℕ
  | [] => []
  | now :: rest =>
    if last_sent_ns ≠ 0 ∧ ((u64_sub now last_sent_ns : ℕ) : ℚ) < min_interval_ns then
      isotp_run min_interval_ns last_sent_ns rest
    else
      now :: isotp_run min_interval_ns now rest

/-! ## Per-sensor pipeline of ranger-u main.cpp -/

/-- One SensorCtx of main.cpp restricted to the fields the core updates:
the tracker, the window-5 median filter, and this sensor's telemetry slot
`tf.dist_m[idx]`, which starts at 0 (`TelemetryFrame tf{}`). -/
structure SensorCtx where
  tracker : PulseTracker
  mf : MedianFilter
  tf : ℚ
deriving DecidableEq

def ctxInit : SensorCtx := ⟨⟨none, 343⟩, ⟨5, []⟩, 0⟩

/-- Embeds the event drain of main.cpp for one sensor:
`if (auto p = tracker.on_edge(es)) if (auto m = mf.push(p->distance_m)) tf.dist_m[idx] = *m;`. -/
def ctxStep (s : SensorCtx) (es : EdgeStamp) : SensorCtx :=
  match (s.tracker.on_edge es).2 with
  | none => { s with tracker := (s.tracker.on_edge es).1 }
  | some p =>
    match (s.mf.push p.distance_m).2 with
    | none => ⟨(s.tracker.on_edge es).1, (s.mf.push p.distance_m).1, s.tf⟩
    | some m => ⟨(s.tracker.on_edge es).1, (s.mf.push p.distance_m).1, m⟩

def ctxRun (s : SensorCtx) : List EdgeStamp → SensorCtx
  | [] => s
  | e :: es => ctxRun (ctxStep s e) es

def trStep (tr : PulseTracker) (es : EdgeStamp) : PulseTracker := (tr.on_edge es).1

def trRun (tr : PulseTracker) : List EdgeStamp → PulseTracker
  | [] => tr
  | e :: es => trRun (trStep tr e) es

/-- Distances of the pulses the tracker completes along an edge sequence. -/
def pulsesOf (tr : PulseTracker) : List EdgeStamp → List ℚ
  | [] => []
  | e :: es =>
    match (tr.on_edge e).2 with
    | some p => p.distance_m :: pulsesOf (trStep tr e) es
    | none => pulsesOf (trStep tr e) es

/-! ## Helper lemmas -/

lemma sortLe_length (l : List ℚ) : (sortLe l).length = l.length := by
  induction l with
  | nil => rfl
  | cons v vs ih =>
    show (insertSorted v (sortLe vs)).length = vs.length + 1
    rw [← ih]
    generalize sortLe vs = m
    induction m with
    | nil => rfl
    | cons x xs ih2 =>
      by_cases h : v ≤ x <;> simp [insertSorted, h] at ih2 ⊢ <;> omega

lemma lastN_length (w : ℕ) (l : List ℚ) : (lastN w l).length = min w l.length := by
  simp [lastN]
  omega

lemma lastN_nil (w : ℕ) : lastN w [] = [] := by simp [lastN]

lemma lastN_append_one (w : ℕ) (l : List ℚ) (v : ℚ) :
    lastN w (lastN w l ++ [v]) = lastN w (l ++ [v]) := by
  rcases Nat.lt_or_ge l.length w with hlt | hge
  · have h0 : l.length - w = 0 := by omega
    simp [lastN, h0]
  · rcases Nat.eq_zero_or_pos w with hw0 | hwpos
    · subst hw0
      have hz : ∀ (m : List ℚ), lastN 0 m = [] := by
        intro m
        simp [lastN]
      rw [hz, hz]
    · have hlen : (l.drop (l.length - w)).length = w := by
        simp
        omega
      unfold lastN
      rw [List.length_append, hlen, List.length_append]
      have h1 : w + [v].length - w = 1 := by simp
      have h2 : l.length + [v].length - w = l.length - w + 1 := by
        simp
        omega
      rw [h1, h2,
          List.drop_append_of_le_length (by omega : 1 ≤ (l.drop (l.length - w)).length),
          List.drop_append_of_le_length (by omega : l.length - w + 1 ≤ l.length),
          List.drop_drop]

lemma lastN_tail (w : ℕ) (m : List ℚ) (v : ℚ) (hm : m.length = w) :
    lastN w (m ++ [v]) = (m ++ [v]).tail := by
  unfold lastN
  rw [List.length_append, hm]
  have h1 : w + [v].length - w = 1 := by simp
  rw [h1, List.drop_one]

lemma push_lastN (w : ℕ) (h : List ℚ) (v : ℚ) :
    MedianFilter.push ⟨w, lastN w h⟩ v =
      (⟨w, lastN w (h ++ [v])⟩,
        if (lastN w (h ++ [v])).length < w then none
        else some (medianOf (lastN w (h ++ [v])))) := by
  have hb : (if w < (lastN w h ++ [v]).length then (lastN w h ++ [v]).tail else (lastN w h ++ [v]))
      = lastN w (h ++ [v]) := by
    rcases Nat.lt_or_ge h.length w with hlt | hge
    · have h0 : h.length - w = 0 := by omega
      have h0' : h.length + 1 - w = 0 := by omega
      have hL : (lastN w h ++ [v]).length = h.length + 1 := by
        simp [lastN, h0]
      rw [hL, if_neg (by omega)]
      simp [lastN, h0, h0']
    · have hL : (lastN w h).length = w := by
        rw [lastN_length]
        omega
      rw [List.length_append, hL, if_pos (by simp), ← lastN_append_one w h v,
          lastN_tail w (lastN w h) v hL]
  simp only [MedianFilter.push]
  rw [hb]
  by_cases hc : (lastN w (h ++ [v])).length < w
  · rw [if_pos hc, if_pos hc]
  · rw [if_neg hc, if_neg hc]
    simp [medianOf, sortLe_length]

lemma mfRun_char (w : ℕ) :
    ∀ (xs h : List ℚ),
      mfRun ⟨w, lastN w h⟩ xs =
        (List.range xs.length).map (fun i =>
          if (lastN w (h ++ xs.take (i + 1))).length < w then none
          else some (medianOf (lastN w (h ++ xs.take (i + 1))))) := by
  intro xs
  induction xs with
  | nil => intro h; rfl
  | cons v vs ih =>
    intro h
    have hstep : mfRun ⟨w, lastN w h⟩ (v :: vs) =
        ((⟨w, lastN w h⟩ : MedianFilter).push v).2 ::
          mfRun ((⟨w, lastN w h⟩ : MedianFilter).push v).1 vs := rfl
    rw [hstep, push_lastN w h v, ih (h ++ [v]), List.length_cons,
        List.range_succ_eq_map, List.map_cons, List.map_map]
    refine congrArg₂ List.cons rfl ?_
    refine List.map_congr_left ?_
    intro i _
    simp only [Function.comp]
    have htk : h ++ (v :: vs).take (Nat.succ i + 1) = h ++ [v] ++ vs.take (i + 1) := by
      rw [List.take_succ_cons]
      exact (List.append_assoc h [v] (vs.take (i + 1))).symm
    rw [htk]

lemma sysRun_snap_mem (ops : List SysOp) :
    ∀ (st : SysState) (c : Fin 5) (x : SysState), x ∈ (sysRun st ops).2 →
      ∃ k, x.s c = applyChan (st.s c) ((chanEvents ops c).take k) := by
  induction ops with
  | nil =>
    intro st c x hx
    simp [sysRun] at hx
  | cons op rest ih =>
    intro st c x hx
    cases op with
    | snap =>
      have hrun : (sysRun st (SysOp.snap :: rest)).2 = st :: (sysRun st rest).2 := rfl
      rw [hrun] at hx
      have hev : chanEvents (SysOp.snap :: rest) c = chanEvents rest c := rfl
      rcases List.mem_cons.1 hx with hx0 | hx1
      · exact ⟨0, by rw [hx0]; rfl⟩
      · rcases ih st c x hx1 with ⟨k, hk⟩
        exact ⟨k, by rw [hev]; exact hk⟩
    | edge ch now level =>
      have hrun : (sysRun st (SysOp.edge ch now level :: rest)).2 =
          (sysRun (sysStep st (SysOp.edge ch now level)) rest).2 := rfl
      rw [hrun] at hx
      rcases ih (sysStep st (SysOp.edge ch now level)) c x hx with ⟨k, hk⟩
      by_cases hc : ch = c
      · subst hc
        have hs : (sysStep st (SysOp.edge ch now level)).s ch =
            echo_irq_thread (st.s ch) now level := by
          simp [sysStep]
        have hev : chanEvents (SysOp.edge ch now level :: rest) ch =
            (now, level) :: chanEvents rest ch := by
          simp [chanEvents]
        refine ⟨k + 1, ?_⟩
        rw [hev, List.take_succ_cons]
        rw [hs] at hk
        exact hk
      · have hs : (sysStep st (SysOp.edge ch now level)).s c = st.s c := by
          simp [sysStep, Function.update_noteq (fun h => hc h.symm)]
        have hev : chanEvents (SysOp.edge ch now level :: rest) c =
            chanEvents rest c := by
          simp [chanEvents, hc]
        refine ⟨k, ?_⟩
        rw [hev]
        rw [hs] at hk
        exact hk

lemma u64_sub_le (a b : ℕ) (hba : b ≤ a) : ((u64_sub a b : ℕ) : ℚ) ≤ (a : ℚ) - (b : ℚ) := by
  have hle : ((a : ℤ) - (b : ℤ)) % 2 ^ 64 ≤ (a : ℤ) - (b : ℤ) := by omega
  have hnn : (0 : ℤ) ≤ ((a : ℤ) - (b : ℤ)) % 2 ^ 64 := by omega
  unfold u64_sub
  have hcast : (((((a : ℤ) - (b : ℤ)) % 2 ^ 64).toNat : ℕ) : ℚ) =
      ((((a : ℤ) - (b : ℤ)) % 2 ^ 64 : ℤ) : ℚ) := by
    rw [← Int.toNat_of_nonneg hnn]
    push_cast [Int.toNat_of_nonneg hnn]
    rfl
  rw [hcast]
  have hq : ((((a : ℤ) - (b : ℤ)) % 2 ^ 64 : ℤ) : ℚ) ≤ (((a : ℤ) - (b : ℤ) : ℤ) : ℚ) := by
    exact_mod_cast hle
  calc ((((a : ℤ) - (b : ℤ)) % 2 ^ 64 : ℤ) : ℚ) ≤ (((a : ℤ) - (b : ℤ) : ℤ) : ℚ) := hq
    _ = (a : ℚ) - (b : ℚ) := by push_cast; ring

lemma isotp_run_spacing (I : ℚ) :
    ∀ (nows : List ℕ) (last : ℕ), 0 < last → (∀ t ∈ nows, last ≤ t) →
      List.Pairwise (· ≤ ·) nows →
      (∀ e, (isotp_run I last nows).head? = some e → I ≤ (e : ℚ) - (last : ℚ)) ∧
      List.Chain' (fun a b : ℕ => I ≤ (b : ℚ) - (a : ℚ)) (isotp_run I last nows) := by
  intro nows
  induction nows with
  | nil =>
    intro last hpos hle hpw
    exact ⟨fun e he => by simp [isotp_run] at he, by simp [isotp_run]⟩
  | cons now rest ih =>
    intro last hpos hle hpw
    have hlenow : last ≤ now := hle now (List.mem_cons_self now rest)
    rcases List.pairwise_cons.1 hpw with ⟨hnowle, hpwrest⟩
    by_cases hc : last ≠ 0 ∧ ((u64_sub now last : ℕ) : ℚ) < I
    · have hrun : isotp_run I last (now :: rest) = isotp_run I last rest := by
        rw [isotp_run, if_pos hc]
      rw [hrun]
      exact ih last hpos (fun t ht => hle t (List.mem_cons_of_mem now ht)) hpwrest
    · have hrun : isotp_run I last (now :: rest) = now :: isotp_run I now rest := by
        rw [isotp_run, if_neg hc]
      rw [hrun]
      have hgap : I ≤ (now : ℚ) - (last : ℚ) := by
        rcases not_and_or.1 hc with hl0 | hlt
        · exact absurd (by omega : last ≠ 0) hl0
        · exact le_trans (not_lt.1 hlt) (u64_sub_le now last hlenow)
      have hrest := ih now (by omega) hnowle hpwrest
      constructor
      · intro e he
        have hen : now = e := by simpa using he
        rw [← hen]
        exact hgap
      · rw [List.chain'_cons']
        exact ⟨fun b hb => hrest.1 b hb, hrest.2⟩

lemma ctxStep_none (s : SensorCtx) (e : EdgeStamp) (hnone : (s.tracker.on_edge e).2 = none) :
    ctxStep s e = { s with tracker := (s.tracker.on_edge e).1 } := by
  unfold ctxStep
  rw [hnone]

lemma ctxStep_some (tr : PulseTracker) (mf : MedianFilter) (tf : ℚ) (e : EdgeStamp) (p : Pulse)
    (hp : (tr.on_edge e).2 = some p) :
    ctxStep ⟨tr, mf, tf⟩ e =
      ⟨(tr.on_edge e).1, (mf.push p.distance_m).1, ((mf.push p.distance_m).2).getD tf⟩ := by
  have hstep : ctxStep ⟨tr, mf, tf⟩ e =
      (match (tr.on_edge e).2 with
       | none => ⟨(tr.on_edge e).1, mf, tf⟩
       | some q =>
         match (mf.push q.distance_m).2 with
         | none => ⟨(tr.on_edge e).1, (mf.push q.distance_m).1, tf⟩
         | some m => ⟨(tr.on_edge e).1, (mf.push q.distance_m).1, m⟩) := rfl
  rw [hstep, hp]
  cases hm : (mf.push p.distance_m).2 with
  | none => simp [hm]
  | some m => simp [hm]

lemma push_lastN_fst (w : ℕ) (h : List ℚ) (v : ℚ) :
    (MedianFilter.push ⟨w, lastN w h⟩ v).1 = ⟨w, lastN w (h ++ [v])⟩ := by
  rw [push_lastN]

lemma push_lastN_snd (w : ℕ) (h : List ℚ) (v : ℚ) :
    (MedianFilter.push ⟨w, lastN w h⟩ v).2 =
      if (lastN w (h ++ [v])).length < w then none
      else some (medianOf (lastN w (h ++ [v]))) := by
  rw [push_lastN]

lemma ctxRun_char :
    ∀ (es : List EdgeStamp) (tr : PulseTracker) (hist : List ℚ) (t0 : ℚ),
      ctxRun ⟨tr, ⟨5, lastN 5 hist⟩,
              if 5 ≤ hist.length then medianOf (lastN 5 hist) else t0⟩ es =
        ⟨trRun tr es, ⟨5, lastN 5 (hist ++ pulsesOf tr es)⟩,
         if 5 ≤ (hist ++ pulsesOf tr es).length
         then medianOf (lastN 5 (hist ++ pulsesOf tr es)) else t0⟩ := by
  intro es
  induction es with
  | nil =>
    intro tr hist t0
    simp [ctxRun, trRun, pulsesOf]
  | cons e rest ih =>
    intro tr hist t0
    have hrun : ctxRun ⟨tr, ⟨5, lastN 5 hist⟩,
        if 5 ≤ hist.length then medianOf (lastN 5 hist) else t0⟩ (e :: rest) =
        ctxRun (ctxStep ⟨tr, ⟨5, lastN 5 hist⟩,
          if 5 ≤ hist.length then medianOf (lastN 5 hist) else t0⟩ e) rest := rfl
    rw [hrun]
    cases hp : (tr.on_edge e).2 with
    | none =>
      have hstep : ctxStep ⟨tr, ⟨5, lastN 5 hist⟩,
          if 5 ≤ hist.length then medianOf (lastN 5 hist) else t0⟩ e =
          ⟨trStep tr e, ⟨5, lastN 5 hist⟩,
           if 5 ≤ hist.length then medianOf (lastN 5 hist) else t0⟩ :=
        ctxStep_none _ e hp
      have hpl : pulsesOf tr (e :: rest) = pulsesOf (trStep tr e) rest := by
        have h0 : pulsesOf tr (e :: rest) =
            (match (tr.on_edge e).2 with
             | some q => q.distance_m :: pulsesOf (trStep tr e) rest
             | none => pulsesOf (trStep tr e) rest) := rfl
        rw [h0, hp]
      have htr : trRun tr (e :: rest) = trRun (trStep tr e) rest := rfl
      rw [hstep, htr, hpl]
      exact ih (trStep tr e) hist t0
    | some p =>
      have hpl : pulsesOf tr (e :: rest) = p.distance_m :: pulsesOf (trStep tr e) rest := by
        have h0 : pulsesOf tr (e :: rest) =
            (match (tr.on_edge e).2 with
             | some q => q.distance_m :: pulsesOf (trStep tr e) rest
             | none => pulsesOf (trStep tr e) rest) := rfl
        rw [h0, hp]
      have htr : trRun tr (e :: rest) = trRun (trStep tr e) rest := rfl
      have happ : hist ++ pulsesOf tr (e :: rest) =
          (hist ++ [p.distance_m]) ++ pulsesOf (trStep tr e) rest := by
        rw [hpl]
        exact (List.append_assoc hist [p.distance_m] (pulsesOf (trStep tr e) rest)).symm
      have hstep := ctxStep_some tr ⟨5, lastN 5 hist⟩
          (if 5 ≤ hist.length then medianOf (lastN 5 hist) else t0) e p hp
      rw [push_lastN_fst 5 hist p.distance_m, push_lastN_snd 5 hist p.distance_m] at hstep
      rw [htr, happ, hstep]
      by_cases hl : hist.length + 1 < 5
      · have hcpos : (lastN 5 (hist ++ [p.distance_m])).length < 5 := by
          rw [lastN_length]
          simp
          omega
        rw [if_pos hcpos, Option.getD_none,
            if_neg (show ¬ 5 ≤ hist.length by omega)]
        have ht := ih (trStep tr e) (hist ++ [p.distance_m]) t0
        rw [if_neg (show ¬ 5 ≤ (hist ++ [p.distance_m]).length by simp; omega)] at ht
        exact ht
      · have hcneg : ¬ (lastN 5 (hist ++ [p.distance_m])).length < 5 := by
          rw [lastN_length]
          simp
          omega
        rw [if_neg hcneg, Option.getD_some]
        have ht := ih (trStep tr e) (hist ++ [p.distance_m]) t0
        rw [if_pos (show 5 ≤ (hist ++ [p.distance_m]).length by simp; omega)] at ht
        exact ht

lemma cast_div_million_err (a : ℕ) :
    |((a / 1000000 : ℕ) : ℚ) - (a : ℚ) / 1000000| < 1 := by
  have h : 1000000 * (a / 1000000) + a % 1000000 = a := Nat.div_add_mod a 1000000
  have h2 : (a % 1000000 : ℕ) < 1000000 := Nat.mod_lt _ (by norm_num)
  have ha : (a : ℚ) = 1000000 * ((a / 1000000 : ℕ) : ℚ) + ((a % 1000000 : ℕ) : ℚ) := by
    exact_mod_cast (congrArg (Nat.cast : ℕ → ℚ) h).symm
  rw [ha, abs_sub_comm]
  have hr : (1000000 * ((a / 1000000 : ℕ) : ℚ) + ((a % 1000000 : ℕ) : ℚ)) / 1000000
      - ((a / 1000000 : ℕ) : ℚ) = ((a % 1000000 : ℕ) : ℚ) / 1000000 := by ring
  rw [hr, abs_of_nonneg (by positivity), div_lt_one (by norm_num)]
  exact_mod_cast h2

/-! ## Claim theorems -/

/-- C1: for every armed PulseTracker (rise timestamp recorded) and every
Falling edge at time ts, on_edge returns a pulse of width ts - rise_ts with
distance_m = speed_of_sound * width_ns * 1e-9 / 2 and disarms the tracker;
with speed 343 and width 2000000 ns the distance is 343/1000 = 0.343 m. -/
theorem pulseTracker_falling_armed :
    (∀ (c : ℚ) (r ts : ℤ),
      PulseTracker.on_edge ⟨some r, c⟩ ⟨Edge.Falling, ts⟩ =
        (⟨none, c⟩, some ⟨ts - r, c * ((ts - r : ℤ) : ℚ) * (1 / 1000000000) / 2⟩)) ∧
    PulseTracker.on_edge ⟨some 0, 343⟩ ⟨Edge.Falling, 2000000⟩ =
      (⟨none, 343⟩, some ⟨2000000, 343 / 1000⟩) := by
  constructor
  · intro c r ts
    show ((⟨none, c⟩, some ⟨ts - r, c * (((ts - r : ℤ) : ℚ) * (1 / 1000000000)) / 2⟩) :
          PulseTracker × Option Pulse) =
        (⟨none, c⟩, some ⟨ts - r, c * ((ts - r : ℤ) : ℚ) * (1 / 1000000000) / 2⟩)
    have hq : c * (((ts - r : ℤ) : ℚ) * (1 / 1000000000)) / 2 =
        c * ((ts - r : ℤ) : ℚ) * (1 / 1000000000) / 2 := by ring
    rw [hq]
  · show ((⟨none, 343⟩, some ⟨(2000000 : ℤ) - 0,
        (343 : ℚ) * ((((2000000 : ℤ) - (0 : ℤ) : ℤ) : ℚ) * (1 / 1000000000)) / 2⟩) :
          PulseTracker × Option Pulse) =
      (⟨none, 343⟩, some ⟨2000000, 343 / 1000⟩)
    norm_num [Prod.ext_iff, Pulse.mk.injEq]

/-- C2 counterexample: the overrun counter is a u32, so at the unarmed state
with overruns = 2^32 - 1 a Falling edge wraps the counter to 0 instead of
incrementing it by exactly 1, refuting the unrestricted claim. -/
theorem falling_unarmed_overrun_wrap :
    (echo_irq_thread ⟨false, 0, 0, 0, 2 ^ 32 - 1⟩ 0 false).overruns = 0 ∧
    (echo_irq_thread ⟨false, 0, 0, 0, 2 ^ 32 - 1⟩ 0 false).overruns ≠ (2 ^ 32 - 1) + 1 := by
  refine ⟨by decide, by decide⟩

/-- C2 amended: a Falling edge on an unarmed channel produces no pulse,
sets that channel's overrun counter to (overruns + 1) mod 2^32 — an
increment by exactly 1 in every case except at the u32 wrap point
2^32 - 1, where it wraps to 0 — and leaves pulses and dist_um unchanged;
the user-space tracker likewise produces no pulse on Falling while unarmed. -/
theorem falling_unarmed_overrun_mod (s : SensorState) (now : ℤ)
    (h1 : s.have_rise = false) :
    echo_irq_thread s now false = { s with overruns := (s.overruns + 1) % 2 ^ 32 } ∧
    (∀ (c : ℚ) (ts : ℤ),
      PulseTracker.on_edge ⟨none, c⟩ ⟨Edge.Falling, ts⟩ = (⟨none, c⟩, none)) := by
  refine ⟨?_, fun c ts => rfl⟩
  simp [echo_irq_thread, h1]

theorem falling_unarmed_overrun_mod_witness :
    sensorInit.have_rise = false ∧
    (echo_irq_thread sensorInit 7 false =
        { sensorInit with overruns := (sensorInit.overruns + 1) % 2 ^ 32 } ∧
      (∀ (c : ℚ) (ts : ℤ),
        PulseTracker.on_edge ⟨none, c⟩ ⟨Edge.Falling, ts⟩ = (⟨none, c⟩, none))) :=
  ⟨rfl, falling_unarmed_overrun_mod sensorInit 7 rfl⟩

/-- C3 counterexample: width_ns_to_um truncates its result to u32, so for
width_ns = 10^14 (where the exact conversion is 17150000000000 µm) the
kernel function returns 195587072, not width_ns * 171500 / 1000000. -/
theorem width_ns_to_um_truncates :
    width_ns_to_um (10 ^ 14) = 195587072 ∧
    (10 ^ 14 * 171500 / 1000000 : ℕ) = 17150000000000 ∧
    width_ns_to_um (10 ^ 14) ≠ (10 ^ 14 * 171500 / 1000000 : ℕ) := by
  refine ⟨by decide, by decide, by decide⟩

/-- C3 amended: for every width_ns ≥ 0 whose converted value fits in u32
(width_ns * 171500 / 1000000 < 2^32), the kernel conversion equals the pure
integer form width_ns * 171500 / 1000000, which agrees with the exact
(floating) form 343 * width_ns * 1e-9 / 2 meters to within 1 µm, and
width_ns = 2000000 gives exactly 343000 µm. -/
theorem width_ns_to_um_in_range (w : ℕ) (h : w * 171500 / 1000000 < 2 ^ 32) :
    width_ns_to_um w = w * 171500 / 1000000 ∧
    |((w * 171500 / 1000000 : ℕ) : ℚ) - 343 * (w : ℚ) * (1 / 1000000000) / 2 * 1000000| < 1 ∧
    width_ns_to_um 2000000 = 343000 := by
  have hmul : w * 171500 < 2 ^ 32 * 1000000 := (Nat.div_lt_iff_lt_mul (by norm_num)).1 h
  have hw64 : w < 2 ^ 64 := by nlinarith
  refine ⟨?_, ?_, by decide⟩
  · unfold width_ns_to_um
    have hx : ((w : ℤ) % 2 ^ 64) = (w : ℤ) := by omega
    rw [hx, Int.toNat_natCast,
        Nat.mod_eq_of_lt (show w * 171500 < 2 ^ 64 by omega),
        Nat.mod_eq_of_lt h]
  · have halg : 343 * (w : ℚ) * (1 / 1000000000) / 2 * 1000000 =
        ((w * 171500 : ℕ) : ℚ) / 1000000 := by
      push_cast
      ring
    rw [halg]
    exact cast_div_million_err (w * 171500)

theorem width_ns_to_um_in_range_witness :
    2000000 * 171500 / 1000000 < 2 ^ 32 ∧
    (width_ns_to_um 2000000 = 2000000 * 171500 / 1000000 ∧
      |((2000000 * 171500 / 1000000 : ℕ) : ℚ) -
        343 * (2000000 : ℚ) * (1 / 1000000000) / 2 * 1000000| < 1 ∧
      width_ns_to_um 2000000 = 343000) :=
  ⟨by decide, width_ns_to_um_in_range 2000000 (by decide)⟩

/-- C4: with window 5 the filter returns none on each of the first 4 pushes
and, from the 5th push on, the median (sorted middle element) of the last 5
pushed values; pushing 1,2,3,4,5 yields 3 on the fifth push. -/
theorem medianFilter_window5 :
    (∀ (xs : List ℚ) (i : ℕ), i < xs.length →
      (mfRun ⟨5, []⟩ xs)[i]? =
        some (if i + 1 < 5 then none
              else some (medianOf (lastN 5 (xs.take (i + 1)))))) ∧
    mfRun ⟨5, []⟩ [1, 2, 3, 4, 5] = [none, none, none, none, some 3] := by
  constructor
  · intro xs i hi
    have h0 : (⟨5, []⟩ : MedianFilter) = ⟨5, lastN 5 []⟩ := by rw [lastN_nil]
    rw [h0, mfRun_char 5 xs [], List.getElem?_map]
    have hr : (List.range xs.length)[i]? = some i := by
      simp [List.getElem?_range, hi]
    rw [hr]
    simp only [Option.map_some']
    have hlen : (lastN 5 ([] ++ xs.take (i + 1))).length < 5 ↔ i + 1 < 5 := by
      rw [List.nil_append, lastN_length, List.length_take]
      omega
    by_cases hc : i + 1 < 5
    · rw [if_pos (hlen.2 hc), if_pos hc]
    · rw [if_neg (fun hh => hc (hlen.1 hh)), if_neg hc, List.nil_append]
  · norm_num [mfRun, MedianFilter.push, sortLe, insertSorted, medianOf]

theorem medianFilter_window5_witness :
    4 < ([1, 2, 3, 4, 5] : List ℚ).length ∧
    (mfRun ⟨5, []⟩ [1, 2, 3, 4, 5])[4]? =
      some (if 4 + 1 < 5 then none
            else some (medianOf (lastN 5 (([1, 2, 3, 4, 5] : List ℚ).take (4 + 1))))) :=
  ⟨by norm_num, medianFilter_window5.1 [1, 2, 3, 4, 5] 4 (by norm_num)⟩

/-- C5 counterexample: the user-space export tick (main.cpp) fires whenever
now ≥ next_print and then advances next_print by one interval, so after a
stall it emits in a burst: with interval 10 and times 25, 26 it emits twice,
1 time unit apart, closer than the configured interval. -/
theorem next_print_run_burst :
    next_print_run 10 0 [25, 26] = [25, 26] ∧ 26 - 25 < 10 := by
  constructor
  · rfl
  · norm_num

/-- C5 amended: the ISO-TP bridge's rate limiter (ranger_can.cpp) sends only
when last_sent_ns = 0 or now - last_sent_ns ≥ the interval, records
last_sent_ns = now, and hence, over any positive monotonically non-decreasing
sequence of now values, never sends two frames closer than the interval. -/
theorem isotp_rate_limit_spacing (I : ℚ) (nows : List ℕ)
    (hpos : ∀ t ∈ nows, 0 < t) (hmono : List.Pairwise (· ≤ ·) nows) :
    List.Chain' (fun a b : ℕ => I ≤ (b : ℚ) - (a : ℚ)) (isotp_run I 0 nows) := by
  cases nows with
  | nil => simp [isotp_run]
  | cons now rest =>
    have hrun : isotp_run I 0 (now :: rest) = now :: isotp_run I now rest := by
      rw [isotp_run, if_neg (by simp)]
    rw [hrun, List.chain'_cons']
    have h0 : 0 < now := hpos now (List.mem_cons_self now rest)
    rcases List.pairwise_cons.1 hmono with ⟨hle, hpw⟩
    have h := isotp_run_spacing I rest now h0 hle hpw
    exact ⟨fun b hb => h.1 b hb, h.2⟩

theorem isotp_rate_limit_spacing_witness :
    (∀ t ∈ ([5, 12, 30] : List ℕ), 0 < t) ∧
    List.Pairwise (· ≤ ·) ([5, 12, 30] : List ℕ) ∧
    List.Chain' (fun a b : ℕ => (10 : ℚ) ≤ (b : ℚ) - (a : ℚ)) (isotp_run 10 0 [5, 12, 30]) :=
  ⟨by decide, by decide, isotp_rate_limit_spacing 10 [5, 12, 30] (by decide) (by decide)⟩

/-- C6: in any interleaving of per-channel IRQ critical sections and
lock-held snapshot copies, every snapshot's per-channel triple equals the
channel state after some prefix of that channel's own delivered edges —
a single point in that channel's update history, so a snapshot can never
show a pulse count without the distance written by the same update. -/
theorem snapshot_per_channel_consistency (ops : List SysOp) (c : Fin 5) (snap : SysState)
    (hmem : snap ∈ (sysRun sysInit ops).2) :
    ∃ k, snap.s c = applyChan sensorInit ((chanEvents ops c).take k) :=
  sysRun_snap_mem ops sysInit c snap hmem

theorem snapshot_per_channel_consistency_witness :
    (sysStep (sysStep sysInit (SysOp.edge 0 100 true)) (SysOp.edge 0 2000100 false)) ∈
      (sysRun sysInit [SysOp.edge 0 100 true, SysOp.edge 0 2000100 false, SysOp.snap]).2 ∧
    ∃ k, (sysStep (sysStep sysInit (SysOp.edge 0 100 true)) (SysOp.edge 0 2000100 false)).s 0 =
      applyChan sensorInit
        ((chanEvents [SysOp.edge 0 100 true, SysOp.edge 0 2000100 false, SysOp.snap] 0).take k) :=
  ⟨by simp [sysRun],
   snapshot_per_channel_consistency
     [SysOp.edge 0 100 true, SysOp.edge 0 2000100 false, SysOp.snap] 0 _ (by simp [sysRun])⟩

/-- C7 counterexample: with an even window (4), a warm push returns the
upper of the two middle values, not the lower one claimed: pushing
1, 2, 3, 4 returns 3 on the fourth push although the lower middle value of
the sorted window [1, 2, 3, 4] is 2. -/
theorem medianFilter_even_window_not_lower :
    mfRun ⟨4, []⟩ [1, 2, 3, 4] = [none, none, none, some 3] ∧
    lowerMiddle (lastN 4 ([1, 2, 3, 4] : List ℚ)) = 2 ∧
    (3 : ℚ) ≠ 2 := by
  refine ⟨?_, ?_, by norm_num⟩
  · norm_num [mfRun, MedianFilter.push, sortLe, insertSorted]
  · norm_num [lowerMiddle, lastN, sortLe, insertSorted]

/-- C7 amended: for every even window size W > 0 and every input sequence,
once warm (the push index i satisfies W ≤ i + 1), push returns the sorted
current window's element at index W / 2 — the upper of the two middle
values of the even-sized window. -/
theorem medianFilter_even_window (w : ℕ) (xs : List ℚ) (i : ℕ)
    (heven : w % 2 = 0) (hw : 0 < w) (hi : i < xs.length) (hwarm : w ≤ i + 1) :
    (mfRun ⟨w, []⟩ xs)[i]? =
      some (some ((sortLe (lastN w (xs.take (i + 1)))).getD (w / 2) 0)) := by
  have h0 : (⟨w, []⟩ : MedianFilter) = ⟨w, lastN w []⟩ := by rw [lastN_nil]
  rw [h0, mfRun_char w xs [], List.getElem?_map]
  have hr : (List.range xs.length)[i]? = some i := by
    simp [List.getElem?_range, hi]
  rw [hr]
  simp only [Option.map_some']
  have hlen : (lastN w ([] ++ xs.take (i + 1))).length = w := by
    rw [List.nil_append, lastN_length, List.length_take]
    omega
  rw [if_neg (by omega), List.nil_append]
  simp only [medianOf]
  rw [List.nil_append] at hlen
  rw [hlen]

theorem medianFilter_even_window_witness :
    4 % 2 = 0 ∧ 0 < 4 ∧ 3 < ([1, 2, 3, 4] : List ℚ).length ∧ 4 ≤ 3 + 1 ∧
    (mfRun ⟨4, []⟩ [1, 2, 3, 4])[3]? =
      some (some ((sortLe (lastN 4 (([1, 2, 3, 4] : List ℚ).take (3 + 1)))).getD (4 / 2) 0)) :=
  ⟨rfl, by norm_num, by norm_num, by norm_num,
   medianFilter_even_window 4 [1, 2, 3, 4] 3 rfl (by norm_num) (by norm_num) (by norm_num)⟩

/-- C8 (code versus spec): construction performs no validation at all.
A MedianFilter built with window 0 accepts a push and returns a value read
past the end of an empty sorted vector (undefined behavior in the C++,
the getD default 0 here), and a PulseTracker built with negative speed of
sound processes a full pulse and returns a negative distance; neither
fails at construction. -/
theorem construction_no_validation :
    MedianFilter.push ⟨0, []⟩ 1 = (⟨0, []⟩, some 0) ∧
    PulseTracker.on_edge ⟨some 0, -1⟩ ⟨Edge.Falling, 2000000⟩ =
      (⟨none, -1⟩, some ⟨2000000, -(1 / 1000)⟩) := by
  constructor
  · norm_num [MedianFilter.push, sortLe]
  · show ((⟨none, -1⟩, some ⟨(2000000 : ℤ) - 0,
        (-1 : ℚ) * ((((2000000 : ℤ) - (0 : ℤ) : ℤ) : ℚ) * (1 / 1000000000)) / 2⟩) :
          PulseTracker × Option Pulse) =
      (⟨none, -1⟩, some ⟨2000000, -(1 / 1000)⟩)
    norm_num [Prod.ext_iff, Pulse.mk.injEq]

/-- C9: a Rising edge always records the event timestamp and arms the
tracker, returning nothing — even when already armed the new timestamp
silently overwrites the old one and no overrun is counted; identically the
kernel handler on a high level only sets have_rise and rise_ts. -/
theorem rising_edge_overwrite :
    (∀ (pt : PulseTracker) (ts : ℤ),
      PulseTracker.on_edge pt ⟨Edge.Rising, ts⟩ = (⟨some ts, pt.c⟩, none)) ∧
    (∀ (s : SensorState) (now : ℤ),
      echo_irq_thread s now true =
        ⟨true, now, s.dist_um, s.pulses, s.overruns⟩) := by
  constructor
  · intro pt ts
    obtain ⟨t, c⟩ := pt
    cases t <;> rfl
  · intro s now
    rfl

/-- C10: in the user-space pipeline, a channel's telemetry slot is 0 until
the median filter first produces an output (the 5th completed pulse) and
from then on always equals the median of the last 5 completed pulse
distances — the most recently produced median; events that complete no
pulse leave it unchanged, so it persists across export ticks. -/
theorem telemetry_zero_until_filter_warm :
    (∀ (es : List EdgeStamp),
      (ctxRun ctxInit es).tf =
        if 5 ≤ (pulsesOf ⟨none, 343⟩ es).length
        then medianOf (lastN 5 (pulsesOf ⟨none, 343⟩ es)) else 0) ∧
    (∀ (s : SensorCtx) (e : EdgeStamp), (s.tracker.on_edge e).2 = none →
      (ctxStep s e).tf = s.tf) := by
  constructor
  · intro es
    have h := ctxRun_char es ⟨none, 343⟩ [] 0
    have h0 : (⟨⟨none, 343⟩, ⟨5, lastN 5 []⟩,
        if 5 ≤ ([] : List ℚ).length then medianOf (lastN 5 []) else 0⟩ : SensorCtx) =
        ctxInit := by
      rw [lastN_nil]
      norm_num [ctxInit]
    rw [h0] at h
    have h2 := congrArg SensorCtx.tf h
    simpa using h2
  · intro s e hnone
    rw [ctxStep_none s e hnone]

theorem telemetry_zero_until_filter_warm_witness :
    ((ctxRun ctxInit [⟨Edge.Rising, 5⟩]).tf =
      if 5 ≤ (pulsesOf ⟨none, 343⟩ [⟨Edge.Rising, 5⟩]).length
      then medianOf (lastN 5 (pulsesOf ⟨none, 343⟩ [⟨Edge.Rising, 5⟩])) else 0) ∧
    (ctxInit.tracker.on_edge ⟨Edge.Rising, 7⟩).2 = none ∧
    (ctxStep ctxInit ⟨Edge.Rising, 7⟩).tf = ctxInit.tf :=
  ⟨telemetry_zero_until_filter_warm.1 [⟨Edge.Rising, 5⟩],
   rfl,
   telemetry_zero_until_filter_warm.2 ctxInit ⟨Edge.Rising, 7⟩ rfl⟩
